import Mathlib

/-!
A verified model of the `system_map.py` pipeline.

This file gives a shallow embedding, in Lean 4, of the file-system
scanning and data-processing pipeline implemented in `src/system_map.py`
(classes `Config`, `FileSystemScanner` and `DataProcessor`), together
with theorems about the embedded definitions.

Modelling conventions:
* The file system visible to the scanner is an explicit inductive value
  (`FSEntry`): a file carries its `stat` size in bytes wrapped in
  `Option` (`none` models a `stat` call that raises, which the code
  swallows), and a directory carries its entries in enumeration order.
* Python floats are modelled as exact rationals (`ℚ`); sizes are
  converted from bytes to megabytes by division by `1024 * 1024`
  exactly as in the code.
* `datetime.now()` is modelled as an explicit `scan_date` argument to
  `process_scan_data`, since it is the single source of nondeterminism
  in the processing stage.
* Python's builtin stable sort (`sorted` with `reverse=True`) is
  modelled by Mathlib's `List.insertionSort`, which is stable and sorts
  with respect to the same "greater or equal size" relation.
-/

namespace SystemMap

/-- A file-system entry as the scanner observes it.  A `file` carries the
size in bytes that `item.stat().st_size` would report, or `none` when the
`stat` call fails (the code silently skips such files).  A `dir` carries
its entries in the order `path.iterdir()` yields them. -/
inductive FSEntry where
  | file (name : String) (statSize : Option Nat)
  | dir (name : String) (entries : List FSEntry)

/-- The name of an entry (`path.name`). -/
def FSEntry.name : FSEntry → String
  | .file n _ => n
  | .dir n _ => n

/-- `Config.EXCLUDE_DIRS` from the source: directory names skipped by the
scanner. -/
def EXCLUDE_DIRS : List String :=
  [".git", ".cache", "node_modules", "__pycache__", ".pytest_cache",
   "venv", "env", ".env", ".venv", "Library", ".Trash",
   "Applications", "Pictures", "Movies", "Music"]

/-- `Config.MIN_SIZE_TO_REPORT` from the source (0.1 MB). -/
def MIN_SIZE_TO_REPORT : ℚ := 1 / 10

/-- `Config.COLORS` from the source, as an association list in the
dictionary's insertion order. -/
def COLORS : List (String × String) :=
  [("projects", "#F687B3"), ("knowledge", "#63B3ED"), ("tools", "#68D391"),
   ("assets", "#F6E05E"), ("development", "#B794F4"), ("config", "#F6AD55"),
   ("temp", "#FED7AA"), ("other", "#718096")]

/-- `Config.CATEGORY_PATTERNS` from the source, in the dictionary's
insertion order (Python dictionaries iterate in insertion order). -/
def CATEGORY_PATTERNS : List (String × List String) :=
  [("projects", ["project", "app", "site", "client", "server"]),
   ("knowledge", ["knowledge", "docs", "wiki", "notes", "learning"]),
   ("tools", ["tools", "utils", "scripts", "automation"]),
   ("assets", ["assets", "images", "media", "resources"]),
   ("development", ["dev", "development", "code", "src"]),
   ("config", [".", "config", "settings", "preferences"]),
   ("temp", ["temp", "tmp", "cache", "inbox", "downloads"])]

/-- `self.config.COLORS.get(category, self.config.COLORS['other'])`. -/
def colors_get (category : String) : String :=
  match COLORS.lookup category with
  | some c => c
  | none => (COLORS.lookup "other").getD ""

/-- Substring containment on character lists: models Python's
`pat in s` for strings. -/
def listIn (pat : List Char) : List Char → Bool
  | [] => pat.isEmpty
  | c :: rest => pat.isPrefixOf (c :: rest) || listIn pat rest

/-- Python's `pat in s` on strings. -/
def strIn (pat s : String) : Bool := listIn pat.data s.data

/-- Python's `s.startswith(pre)` (for a single pattern). -/
def strStarts (s pre : String) : Bool := pre.data.isPrefixOf s.data

/-- Python's `s.endswith(suf)`. -/
def strEnds (s suf : String) : Bool := suf.data.isSuffixOf s.data

/-- Python's `str.lower`, modelled character-wise (the directory names in
this development are ASCII, where `Char.toLower` agrees with Python). -/
def pyLower (s : String) : String := ⟨s.data.map Char.toLower⟩

/-- The keyword loop of `FileSystemScanner._determine_category`: the
first category whose pattern list contains a substring of the lowered
name. -/
def findCategory (nl : String) : List (String × List String) → Option String
  | [] => none
  | (cat, pats) :: rest =>
    if pats.any (fun p => strIn p nl) then some cat else findCategory nl rest

/-- `name.startswith(('01', '02', '03', '04', '05', '99'))` from the
source. -/
def startsWithNum (name : String) : Bool :=
  strStarts name "01" || strStarts name "02" || strStarts name "03" ||
  strStarts name "04" || strStarts name "05" || strStarts name "99"

/-- `FileSystemScanner._determine_category`. -/
def determine_category (name : String) : String :=
  match findCategory (pyLower name) CATEGORY_PATTERNS with
  | some cat => cat
  | none =>
    if strStarts name "." then "config"
    else if startsWithNum name then
      if strIn "01" name then "projects"
      else if strIn "02" name then "knowledge"
      else if strIn "03" name || strIn "04" name then "tools"
      else if strIn "05" name then "assets"
      else if strIn "99" name then "temp"
      else "other"
    else "other"

/-- `FileSystemScanner._should_exclude_file`: `Path.match` against the
patterns of `Config.EXCLUDE_PATTERNS` (`*.pyc`, `*.pyo`, `.DS_Store`,
`*.swp`, `*.swo`), which on a file name is a suffix test for the
wildcard patterns and an exact test for `.DS_Store`. -/
def should_exclude_file (n : String) : Bool :=
  strEnds n ".pyc" || strEnds n ".pyo" || n == ".DS_Store" ||
  strEnds n ".swp" || strEnds n ".swo"

/-- The node dictionary built by `FileSystemScanner._scan_recursive`:
fields `name`, `path`, `size` (MB), `file_count`, `children`,
`category`, `color`. -/
inductive DirectoryNode where
  | mk (name : String) (path : String) (size : ℚ) (file_count : Nat)
       (children : List DirectoryNode) (category : String) (color : String)

def DirectoryNode.name : DirectoryNode → String
  | .mk n _ _ _ _ _ _ => n

def DirectoryNode.path : DirectoryNode → String
  | .mk _ p _ _ _ _ _ => p

def DirectoryNode.size : DirectoryNode → ℚ
  | .mk _ _ s _ _ _ _ => s

def DirectoryNode.file_count : DirectoryNode → Nat
  | .mk _ _ _ c _ _ _ => c

def DirectoryNode.children : DirectoryNode → List DirectoryNode
  | .mk _ _ _ _ ch _ _ => ch

def DirectoryNode.category : DirectoryNode → String
  | .mk _ _ _ _ _ cat _ => cat

def DirectoryNode.color : DirectoryNode → String
  | .mk _ _ _ _ _ _ col => col

mutual

/-- `FileSystemScanner._scan_recursive`.  The `path` argument is the
string form of the scanned path (`str(path)`); a `file` entry returns
`none` (the `not path.is_dir()` guard), an excluded directory name
returns `none`, and otherwise the loop over `path.iterdir()` accumulates
size, file count and retained children. -/
def scanRec : FSEntry → String → Nat → Nat → Option DirectoryNode
  | .file _ _, _, _, _ => none
  | .dir nm entries, p, current_depth, max_depth =>
    if nm ∈ EXCLUDE_DIRS then none
    else
      let r := scanEntries entries p current_depth max_depth
      some (.mk nm p r.1 r.2.1 r.2.2 (determine_category nm)
        (colors_get (determine_category nm)))
termination_by structural e => e

/-- The `for item in path.iterdir()` loop of `_scan_recursive`,
returning the accumulated `(size, file_count, children)` triple.  A
non-excluded file with a successful `stat` adds `st_size / (1024*1024)`
and one file; a subdirectory is recursed into only when
`current_depth < max_depth`, and the child is retained only when its
size is at least `MIN_SIZE_TO_REPORT`. -/
def scanEntries : List FSEntry → String → Nat → Nat → ℚ × Nat × List DirectoryNode
  | [], _, _, _ => (0, 0, [])
  | e :: rest, p, current_depth, max_depth =>
    let r := scanEntries rest p current_depth max_depth
    match e with
    | .file fn statSize =>
      if should_exclude_file fn then r
      else
        match statSize with
        | some bytes => ((bytes : ℚ) / (1024 * 1024) + r.1, r.2.1 + 1, r.2.2)
        | none => r
    | .dir dn des =>
      if current_depth < max_depth then
        match scanRec (.dir dn des) (p ++ "/" ++ dn) (current_depth + 1) max_depth with
        | some child =>
          if MIN_SIZE_TO_REPORT ≤ child.size then
            (child.size + r.1, child.file_count + r.2.1, child :: r.2.2)
          else r
        | none => r
      else r
termination_by structural es => es

end

/-- `FileSystemScanner.scan_directory`.  The `root` argument models what
the root path resolves to: `none` when the path does not exist, and
otherwise the entry found there. -/
def scan_directory (root : Option FSEntry) (path : String) (max_depth : Nat) :
    Option DirectoryNode :=
  match root with
  | none => none
  | some e => scanRec e path 0 max_depth

/-- A value of the per-category dictionary built by
`DataProcessor._aggregate_by_category`: `{'size': …, 'count': …,
'color': …}`. -/
structure CatData where
  size : ℚ
  count : Nat
  color : String

/-- One update step of `_aggregate_by_category`'s dictionary: create the
bucket with the node's color if the category is new, then add the node's
size and file count.  The association list keeps the dictionary's
insertion order. -/
def bump : List (String × CatData) → String → ℚ → Nat → String →
    List (String × CatData)
  | [], cat, sz, cnt, col => [(cat, ⟨sz, cnt, col⟩)]
  | (c, d) :: rest, cat, sz, cnt, col =>
    if c = cat then (c, ⟨d.size + sz, d.count + cnt, d.color⟩) :: rest
    else (c, d) :: bump rest cat sz cnt col

mutual

/-- `aggregate_recursive` inside `DataProcessor._aggregate_by_category`:
the node's own bucket is updated first, then the children are processed
in order (pre-order traversal). -/
def aggregate_node (cats : List (String × CatData)) :
    DirectoryNode → List (String × CatData)
  | .mk _ _ sz fc ch cat col => aggregate_list (bump cats cat sz fc col) ch
termination_by structural n => n

/-- The `for child in node.get('children', [])` loop of
`aggregate_recursive`. -/
def aggregate_list (cats : List (String × CatData)) :
    List DirectoryNode → List (String × CatData)
  | [] => cats
  | c :: rest => aggregate_list (aggregate_node cats c) rest
termination_by structural cs => cs

end

/-- `DataProcessor._aggregate_by_category`. -/
def aggregate_by_category (data : DirectoryNode) : List (String × CatData) :=
  aggregate_node [] data

/-- One element of the list built by `DataProcessor._get_top_directories`. -/
structure TopDir where
  name : String
  size : ℚ
  category : String
  color : String

mutual

/-- `collect_dirs` inside `DataProcessor._get_top_directories`: the node
itself is recorded when its level is at most 2, and the children are
always recursed into with `level + 1`. -/
def collect_dirs (node : DirectoryNode) (level : Nat) : List TopDir :=
  match node with
  | .mk nm _ sz _ ch cat col =>
    (if level ≤ 2 then [⟨nm, sz, cat, col⟩] else []) ++
      collect_dirs_list ch (level + 1)
termination_by structural node

/-- The `for child in node.get('children', [])` loop of `collect_dirs`. -/
def collect_dirs_list (cs : List DirectoryNode) (level : Nat) : List TopDir :=
  match cs with
  | [] => []
  | c :: rest => collect_dirs c level ++ collect_dirs_list rest level
termination_by structural cs

end

/-- The ordering used by `sorted(all_dirs, key=lambda x: x['size'],
reverse=True)`: `a` may come before `b` when `b`'s size is at most
`a`'s. -/
def topOrd (a b : TopDir) : Prop := b.size ≤ a.size

instance : DecidableRel topOrd := fun a b =>
  inferInstanceAs (Decidable (b.size ≤ a.size))

instance : IsTotal TopDir topOrd :=
  ⟨fun a b => (le_total a.size b.size).symm⟩

instance : IsTrans TopDir topOrd :=
  ⟨fun _ _ _ h h' => le_trans h' h⟩

/-- `DataProcessor._get_top_directories`.  Python's `sorted` is a stable
sort; `List.insertionSort` with `topOrd` is the stable descending sort
by size, so the two agree element for element. -/
def get_top_directories (data : DirectoryNode) (limit : Nat) : List TopDir :=
  (List.insertionSort topOrd (collect_dirs data 0)).take limit

/-- A node of the D3 tree produced by `DataProcessor._prepare_tree_data`:
fields `name`, `value` (the directory size), `count`, `color`,
`children`. -/
inductive TreeNode where
  | mk (name : String) (value : ℚ) (count : Nat) (color : String)
       (children : List TreeNode)

mutual

/-- `convert_node` inside `DataProcessor._prepare_tree_data`. -/
def convert_node : DirectoryNode → TreeNode
  | .mk nm _ sz fc ch _ col => .mk nm sz fc col (convert_list ch)
termination_by structural n => n

/-- The list comprehension over children in `convert_node`. -/
def convert_list : List DirectoryNode → List TreeNode
  | [] => []
  | c :: rest => convert_node c :: convert_list rest
termination_by structural cs => cs

end

/-- `DataProcessor._prepare_tree_data`. -/
def prepare_tree_data (data : DirectoryNode) : TreeNode := convert_node data

/-- Round to the nearest integer with ties to even, the rounding used by
Python's fixed-point float formatting, modelled exactly on rationals. -/
def roundHalfEven (q : ℚ) : ℤ :=
  if q - ⌊q⌋ < 1 / 2 then ⌊q⌋
  else if 1 / 2 < q - ⌊q⌋ then ⌊q⌋ + 1
  else if 2 ∣ ⌊q⌋ then ⌊q⌋ else ⌊q⌋ + 1

/-- `DataProcessor._format_size`: `f"{size_mb/1000:.1f}GB"` when the
size is at least 1000, else `f"{size_mb:.0f}MB"` (decimal formatting is
modelled by exact rounding on `ℚ`). -/
def format_size (size_mb : ℚ) : String :=
  if 1000 ≤ size_mb then
    let t : ℤ := roundHalfEven (size_mb / 1000 * 10)
    toString (t / 10) ++ "." ++ toString (t % 10) ++ "GB"
  else
    toString (roundHalfEven size_mb) ++ "MB"

/-- A node of the vis.js graph built by
`DataProcessor._prepare_network_data` (keys `id`, `label`, `size`,
`color`, `level`). -/
structure NetNode where
  id : Nat
  label : String
  size : ℚ
  color : String
  level : Nat

/-- An edge of the vis.js graph (keys `from`, `to`, `width`; `from` is a
Lean keyword, hence `fromId`/`toId`). -/
structure NetEdge where
  fromId : Nat
  toId : Nat
  width : ℚ

mutual

/-- `create_network` inside `DataProcessor._prepare_network_data`.  The
closure-captured mutable `node_id` counter and the `nodes`/`edges`
accumulator lists are threaded as the explicit state `st`. -/
def create_network (node : DirectoryNode) (parentId : Option Nat)
    (level : Nat) (st : Nat × List NetNode × List NetEdge) :
    Nat × List NetNode × List NetEdge :=
  match node with
  | .mk nm _ sz _ ch _ col =>
    let currentId := st.1
    let nodes := st.2.1 ++
      [⟨currentId, nm ++ "\\n" ++ format_size sz, min 50 (max 20 (sz / 100)),
        col, level⟩]
    let edges :=
      match parentId with
      | some pid => st.2.2 ++ [⟨pid, currentId, min 5 (max 1 (sz / 1000))⟩]
      | none => st.2.2
    create_network_list ch currentId (level + 1) (currentId + 1, nodes, edges)
termination_by structural node

/-- The `for child in node.get('children', [])` loop of
`create_network`. -/
def create_network_list (cs : List DirectoryNode) (parentId : Nat)
    (level : Nat) (st : Nat × List NetNode × List NetEdge) :
    Nat × List NetNode × List NetEdge :=
  match cs with
  | [] => st
  | c :: rest =>
    create_network_list rest parentId level
      (create_network c (some parentId) level st)
termination_by structural cs

end

/-- `DataProcessor._prepare_network_data`. -/
def prepare_network_data (data : DirectoryNode) :
    List NetNode × List NetEdge :=
  let r := create_network data none 0 (0, [], [])
  (r.2.1, r.2.2)

/-- The dictionary returned by `DataProcessor.process_scan_data`.
`scan_date` is `datetime.now().isoformat()` in the source; the
timestamp is the processing stage's only nondeterministic input, so it
is passed in explicitly here. -/
structure ProcessedData where
  total_size : ℚ
  total_files : Nat
  scan_date : String
  categories : List (String × CatData)
  top_directories : List TopDir
  tree_data : TreeNode
  network_data : List NetNode × List NetEdge

/-- `DataProcessor.process_scan_data` (with the default
`limit = 10` of `_get_top_directories`). -/
def process_scan_data (scan_data : DirectoryNode) (scan_date : String) :
    ProcessedData :=
  ⟨scan_data.size, scan_data.file_count, scan_date,
   aggregate_by_category scan_data,
   get_top_directories scan_data 10,
   prepare_tree_data scan_data,
   prepare_network_data scan_data⟩

/-- The total size in MB of the direct files of a directory's entry list
that the scanner counts: non-excluded files whose `stat` succeeded.
This mirrors the `item.is_file()` branch of the scan loop. -/
def files_size : List FSEntry → ℚ
  | [] => 0
  | .file fn sz :: rest =>
    (if should_exclude_file fn then 0
     else match sz with
       | some bytes => (bytes : ℚ) / (1024 * 1024)
       | none => 0) + files_size rest
  | .dir _ _ :: rest => files_size rest

/-- The number of direct files of a directory's entry list that the
scanner counts (non-excluded, `stat` succeeded). -/
def files_count : List FSEntry → Nat
  | [] => 0
  | .file fn sz :: rest =>
    (if should_exclude_file fn then 0
     else match sz with
       | some _ => 1
       | none => 0) + files_count rest
  | .dir _ _ :: rest => files_count rest

/-- The spec's size invariant, stated against the input entry that a
node was scanned from: the node's size and file count are its own
direct files' totals plus the retained children's, and each retained
child in turn satisfies the invariant for one of the directory's
entries.  (A `file` entry never yields a node, so the invariant is
unsatisfiable there.) -/
def SizeInvariant : FSEntry → DirectoryNode → Prop
  | .file _ _, _ => False
  | .dir _ es, node =>
    node.size = files_size es + (node.children.map DirectoryNode.size).sum ∧
    node.file_count =
      files_count es + (node.children.map DirectoryNode.file_count).sum ∧
    ∀ c ∈ node.children, ∃ e, ∃ hm : e ∈ es, SizeInvariant e c
termination_by e _ => sizeOf e
decreasing_by
  calc sizeOf e < sizeOf es := List.sizeOf_lt_of_mem hm
    _ < sizeOf (FSEntry.dir _ es) := by simp [FSEntry.dir.sizeOf_spec]

mutual

/-- The strict descendants of a node (children, grandchildren, …) in
pre-order. -/
def descendants : DirectoryNode → List DirectoryNode
  | .mk _ _ _ _ ch _ _ => descList ch
termination_by structural n => n

/-- Strict descendants, list version. -/
def descList : List DirectoryNode → List DirectoryNode
  | [] => []
  | c :: rest => c :: (descendants c ++ descList rest)
termination_by structural cs => cs

end

mutual

/-- The number of nodes of a directory tree. -/
def countNodes : DirectoryNode → Nat
  | .mk _ _ _ _ ch _ _ => 1 + countList ch
termination_by structural n => n

/-- The number of nodes of a forest. -/
def countList : List DirectoryNode → Nat
  | [] => 0
  | c :: rest => countNodes c + countList rest
termination_by structural cs => cs

end

/-- The nodes of a tree at depth at most `k` below (and including) the
given node. -/
def nodesToDepth : Nat → DirectoryNode → List DirectoryNode
  | 0, n => [n]
  | k + 1, n => n :: (n.children.map (nodesToDepth k)).flatten

/-- The record `_get_top_directories` builds for one node. -/
def topEntry (n : DirectoryNode) : TopDir :=
  ⟨n.name, n.size, n.category, n.color⟩

def TreeNode.name : TreeNode → String
  | .mk nm _ _ _ _ => nm

def TreeNode.value : TreeNode → ℚ
  | .mk _ v _ _ _ => v

/-- The keyword lists of the categories that `_determine_category` tests
before `config` (projects, knowledge, tools, assets, development). -/
def earlier_keywords : List String :=
  ((CATEGORY_PATTERNS.take 5).map Prod.snd).flatten

/-- The "root path does not exist or is not a directory" condition of
the spec's scanner contract. -/
def rootMissingOrNotDir (root : Option FSEntry) : Prop :=
  root = none ∨ ∃ n s, root = some (.file n s)

/-- The worked example of the spec: a root with one 2 MB file and a
subdirectory `01_Projects` holding one 150 MB file. -/
def exRoot : FSEntry :=
  .dir "root" [.file "a.bin" (some 2097152),
    .dir "01_Projects" [.file "big.bin" (some 157286400)]]

/-- The node the scanner produces for `exRoot` at depth 3. -/
def exNode : DirectoryNode :=
  .mk "root" "/r" 152 2
    [.mk "01_Projects" "/r/01_Projects" 150 1 [] "projects" "#F687B3"]
    "other" "#718096"

/-- A root whose subdirectory holds a large file, used to exercise the
depth limit. -/
def depthRoot : FSEntry :=
  .dir "r" [.file "f.bin" (some 1048576),
    .dir "sub" [.file "g.bin" (some 157286400)]]

/-- An empty root directory: its cumulative size 0 is below the
reporting threshold, yet the scanner keeps it. -/
def emptyRoot : FSEntry := .dir "emptyroot" []

/-- The node the scanner produces for `emptyRoot`. -/
def emptyNode : DirectoryNode :=
  .mk "emptyroot" "/e" 0 0 [] "other" "#718096"

/-- The behaviour of one recursive `create_network` call (always made
with a parent id below the current counter): it advances the id counter
by the subtree's node count, appends nodes whose ids are exactly the
counter range it consumed, and appends one edge per subtree node, each
pointing from an earlier id to a later one. -/
def NetSpec (c : DirectoryNode) : Prop :=
  ∀ (pid lvl s : Nat) (ns : List NetNode) (es : List NetEdge),
    pid < s →
    (create_network c (some pid) lvl (s, ns, es)).1 = s + countNodes c ∧
    ∃ nns neds,
      (create_network c (some pid) lvl (s, ns, es)).2.1 = ns ++ nns ∧
      (create_network c (some pid) lvl (s, ns, es)).2.2 = es ++ neds ∧
      nns.map NetNode.id = List.range' s (countNodes c) ∧
      neds.length = countNodes c ∧
      ∀ ed ∈ neds, ed.fromId < ed.toId ∧ ed.toId < s + countNodes c

/-- The behaviour of the `create_network` child loop over a forest, in
the same terms as `NetSpec`. -/
def NetSpecList (cs : List DirectoryNode) : Prop :=
  ∀ (pid lvl s : Nat) (ns : List NetNode) (es : List NetEdge),
    pid < s →
    (create_network_list cs pid lvl (s, ns, es)).1 = s + countList cs ∧
    ∃ nns neds,
      (create_network_list cs pid lvl (s, ns, es)).2.1 = ns ++ nns ∧
      (create_network_list cs pid lvl (s, ns, es)).2.2 = es ++ neds ∧
      nns.map NetNode.id = List.range' s (countList cs) ∧
      neds.length = countList cs ∧
      ∀ ed ∈ neds, ed.fromId < ed.toId ∧ ed.toId < s + countList cs

/-- Structural induction for `FSEntry`, with the hypotheses for a
directory's entries packaged as a membership statement. -/
theorem fsEntryMemRec {P : FSEntry → Prop}
    (file : ∀ n s, P (.file n s))
    (dir : ∀ n es, (∀ e ∈ es, P e) → P (.dir n es)) :
    ∀ e, P e := fun e =>
  @FSEntry.rec P (fun l => ∀ x ∈ l, P x)
    file dir
    (fun x hx => absurd hx (List.not_mem_nil x))
    (fun head tail hh ht x hx => by
      rcases List.mem_cons.mp hx with h | h
      · exact h ▸ hh
      · exact ht x h)
    e

/-- Structural induction for `DirectoryNode`, with the hypotheses for
the children packaged as a membership statement. -/
theorem directoryNodeMemRec {P : DirectoryNode → Prop}
    (mk : ∀ nm p sz fc ch cat col,
      (∀ c ∈ ch, P c) → P (.mk nm p sz fc ch cat col)) :
    ∀ n, P n := fun n =>
  @DirectoryNode.rec P (fun l => ∀ x ∈ l, P x)
    mk
    (fun x hx => absurd hx (List.not_mem_nil x))
    (fun head tail hh ht x hx => by
      rcases List.mem_cons.mp hx with h | h
      · exact h ▸ hh
      · exact ht x h)
    n

/-- The accumulating scan loop decomposed: the accumulated size is the
direct files' total plus the retained children's sizes, the count
likewise, and every retained child meets the size threshold and is the
scan result of one of the entries at depth `d + 1`. -/
theorem scanEntries_spec (p : String) (d m : Nat) (es : List FSEntry) :
    (scanEntries es p d m).1 =
      files_size es + ((scanEntries es p d m).2.2.map DirectoryNode.size).sum ∧
    (scanEntries es p d m).2.1 =
      files_count es +
        ((scanEntries es p d m).2.2.map DirectoryNode.file_count).sum ∧
    ∀ c ∈ (scanEntries es p d m).2.2,
      MIN_SIZE_TO_REPORT ≤ c.size ∧
      ∃ e ∈ es, scanRec e (p ++ "/" ++ e.name) (d + 1) m = some c := by
  induction es with
  | nil => simp [scanEntries, files_size, files_count]
  | cons e rest ih =>
    obtain ⟨h1, h2, h3⟩ := ih
    have hmono : ∀ c ∈ (scanEntries rest p d m).2.2,
        MIN_SIZE_TO_REPORT ≤ c.size ∧
        ∃ x ∈ e :: rest, scanRec x (p ++ "/" ++ x.name) (d + 1) m = some c :=
      fun c hc =>
        ⟨(h3 c hc).1, by
          obtain ⟨x, hx, hsr⟩ := (h3 c hc).2
          exact ⟨x, List.mem_cons_of_mem e hx, hsr⟩⟩
    cases e with
    | file fn sz =>
      by_cases hex : should_exclude_file fn
      · refine ⟨?_, ?_, ?_⟩ <;>
          simp only [scanEntries, files_size, files_count, hex, if_pos,
            if_true, ite_true] <;>
          first
            | (rw [h1]; ring)
            | (rw [h2]; ring)
            | exact hmono
      · cases sz with
        | none =>
          refine ⟨?_, ?_, ?_⟩ <;>
            simp only [scanEntries, files_size, files_count, hex, if_false,
              ite_false, Bool.false_eq_true] <;>
            first
              | (rw [h1]; ring)
              | (rw [h2]; ring)
              | exact hmono
        | some bytes =>
          refine ⟨?_, ?_, ?_⟩ <;>
            simp only [scanEntries, files_size, files_count, hex, if_false,
              ite_false, Bool.false_eq_true] <;>
            first
              | (rw [h1]; ring)
              | (rw [h2]; ring)
              | exact hmono
    | dir dn des =>
      by_cases hd : d < m
      · simp only [scanEntries, files_size, files_count, hd, if_pos, if_true,
          ite_true]
        cases hsr : scanRec (.dir dn des) (p ++ "/" ++ dn) (d + 1) m with
        | none =>
          exact ⟨by rw [h1], by rw [h2], hmono⟩
        | some child =>
          by_cases hth : MIN_SIZE_TO_REPORT ≤ child.size
          · simp only [hth, if_pos, if_true, ite_true]
            refine ⟨?_, ?_, ?_⟩
            · simp only [List.map_cons, List.sum_cons]
              rw [h1]; ring
            · simp only [List.map_cons, List.sum_cons]
              rw [h2]; ring
            · intro c hc
              rcases List.mem_cons.mp hc with rfl | hc
              · exact ⟨hth, ⟨.dir dn des, List.mem_cons_self _ _,
                  by simpa [FSEntry.name] using hsr⟩⟩
              · exact hmono c hc
          · simp only [hth, if_neg, ite_false]
            exact ⟨by rw [h1], by rw [h2], hmono⟩
      · simp only [scanEntries, files_size, files_count, hd, if_neg,
          ite_false]
        exact ⟨by rw [h1], by rw [h2], hmono⟩

/-- A non-excluded directory always scans to a node (the scanner never
fails on an existing directory, whatever its size). -/
theorem scanRec_dir_eq (nm : String) (es : List FSEntry) (p : String)
    (d m : Nat) (h : nm ∉ EXCLUDE_DIRS) :
    scanRec (.dir nm es) p d m =
      some (.mk nm p (scanEntries es p d m).1 (scanEntries es p d m).2.1
        (scanEntries es p d m).2.2 (determine_category nm)
        (colors_get (determine_category nm))) := by
  simp [scanRec, h]

/-- C1: for every `DirectoryNode` in the tree returned by the scanner,
its reported size equals the total size of its own direct (non-excluded,
successfully stat-ed) files plus the sum of the reported sizes of its
retained children, and its file count equals its own direct file count
plus the sum of its retained children's file counts — recursively at
every node of the tree. -/
theorem scan_size_invariant (e : FSEntry) :
    ∀ (p : String) (d m : Nat) (node : DirectoryNode),
      scanRec e p d m = some node → SizeInvariant e node := by
  induction e using fsEntryMemRec with
  | file n s => intro p d m node h; simp [scanRec] at h
  | dir nm es ih =>
    intro p d m node h
    by_cases hmem : nm ∈ EXCLUDE_DIRS
    · simp [scanRec, hmem] at h
    · rw [scanRec_dir_eq nm es p d m hmem, Option.some_inj] at h
      obtain ⟨h1, h2, h3⟩ := scanEntries_spec p d m es
      subst h
      rw [SizeInvariant]
      refine ⟨by simpa [DirectoryNode.size, DirectoryNode.children] using h1,
        by simpa [DirectoryNode.file_count, DirectoryNode.children] using h2,
        ?_⟩
      intro c hc
      obtain ⟨-, x, hx, hsr⟩ := h3 c (by simpa [DirectoryNode.children] using hc)
      exact ⟨x, hx, ih x hx _ _ _ _ hsr⟩

/-- C1 (witness): the invariant holds for the scan of the worked
example tree. -/
theorem scan_size_invariant_witness : SizeInvariant exRoot exNode :=
  scan_size_invariant exRoot "/r" 0 3 exNode (by
    norm_num +decide [exRoot, exNode, scanRec, scanEntries,
      should_exclude_file, determine_category, colors_get, EXCLUDE_DIRS,
      MIN_SIZE_TO_REPORT, strEnds, strStarts, strIn, listIn, findCategory,
      startsWithNum, pyLower, CATEGORY_PATTERNS, COLORS, DirectoryNode.size,
      DirectoryNode.file_count])

/-- C3 (counterexample): the claim "the scanner returns a null result
exactly when the root path does not exist or is not a directory" fails:
the root `Library` exists and is a directory, yet the scanner returns
`None`, because the root's own name is in the exclusion set. -/
theorem scan_none_counterexample :
    scan_directory (some (.dir "Library" [])) "/Users/u/Library" 3 = none ∧
    ¬ rootMissingOrNotDir (some (.dir "Library" [])) := by
  constructor
  · simp [scan_directory, scanRec, EXCLUDE_DIRS]
  · rintro (h | ⟨n, s, h⟩) <;> simp at h

/-- C3 (amended): the scanner returns a null result exactly when the
root path does not exist, is not a directory, or is a directory whose
name is in the exclusion set. -/
theorem scan_directory_none_iff (root : Option FSEntry) (p : String)
    (m : Nat) :
    scan_directory root p m = none ↔
      rootMissingOrNotDir root ∨
        ∃ n es, root = some (.dir n es) ∧ n ∈ EXCLUDE_DIRS := by
  cases root with
  | none => simp [scan_directory, rootMissingOrNotDir]
  | some e =>
    cases e with
    | file n s =>
      simp [scan_directory, scanRec, rootMissingOrNotDir]
    | dir nm es =>
      by_cases hmem : nm ∈ EXCLUDE_DIRS
      · simp [scan_directory, scanRec, hmem, rootMissingOrNotDir]
      · simp [scan_directory, scanRec_dir_eq nm es p 0 m hmem,
          rootMissingOrNotDir]
        exact fun h => hmem h

/-- When the depth budget is exhausted (`current_depth ≥ max_depth`) the
scan loop never descends: it returns the direct files' totals and no
children. -/
theorem scanEntries_depth_limit (p : String) (d m : Nat) (hdm : m ≤ d) :
    ∀ es : List FSEntry,
      scanEntries es p d m = (files_size es, files_count es, []) := by
  intro es
  induction es with
  | nil => simp [scanEntries, files_size, files_count]
  | cons e rest ih =>
    cases e with
    | file fn sz =>
      by_cases hex : should_exclude_file fn
      · simp [scanEntries, files_size, files_count, hex, ih]
      · cases sz with
        | none => simp [scanEntries, files_size, files_count, hex, ih]
        | some bytes =>
          simp [scanEntries, files_size, files_count, hex, ih]
          omega
    | dir dn des =>
      have hd : ¬ d < m := by omega
      simp [scanEntries, files_size, files_count, hd, ih]

/-- C7: scanning an existing root with maximum depth 0 yields a node
whose size and file count come from the root's direct files only and
whose children list is empty, regardless of what the subdirectories
contain. -/
theorem depth_zero_scan (nm : String) (es : List FSEntry) (p : String)
    (node : DirectoryNode)
    (h : scan_directory (some (.dir nm es)) p 0 = some node) :
    node.children = [] ∧ node.size = files_size es ∧
      node.file_count = files_count es := by
  by_cases hmem : nm ∈ EXCLUDE_DIRS
  · simp [scan_directory, scanRec, hmem] at h
  · rw [scan_directory, scanRec_dir_eq nm es p 0 0 hmem,
      scanEntries_depth_limit p 0 0 le_rfl es, Option.some_inj] at h
    subst h
    simp [DirectoryNode.children, DirectoryNode.size, DirectoryNode.file_count]

/-- C7 (witness): scanning `depthRoot` (which hides a 150 MB file in a
subdirectory) at depth 0 keeps only the root's own 1 MB file. -/
theorem depth_zero_scan_witness :
    (DirectoryNode.mk "r" "/r" 1 1 [] "other" "#718096").children = [] ∧
    (DirectoryNode.mk "r" "/r" 1 1 [] "other" "#718096").size =
      files_size [.file "f.bin" (some 1048576),
        .dir "sub" [.file "g.bin" (some 157286400)]] ∧
    (DirectoryNode.mk "r" "/r" 1 1 [] "other" "#718096").file_count =
      files_count [.file "f.bin" (some 1048576),
        .dir "sub" [.file "g.bin" (some 157286400)]] :=
  depth_zero_scan "r"
    [.file "f.bin" (some 1048576), .dir "sub" [.file "g.bin" (some 157286400)]]
    "/r" (.mk "r" "/r" 1 1 [] "other" "#718096") (by
      norm_num +decide [scan_directory, scanRec, scanEntries,
        should_exclude_file, determine_category, colors_get, EXCLUDE_DIRS,
        MIN_SIZE_TO_REPORT, strEnds, strStarts, strIn, listIn, findCategory,
        startsWithNum, pyLower, CATEGORY_PATTERNS, COLORS])

/-- C2 (counterexample): on the worked example, the category map's
`other` bucket (the root's own category) holds the root's cumulative
152 MB, not the 2 MB of the root's direct files that the claim
predicts: `_aggregate_by_category` adds each node's cumulative size to
its own category's bucket. -/
theorem category_map_counterexample :
    scan_directory (some exRoot) "/r" 3 = some exNode ∧
    (aggregate_by_category exNode).lookup "other" =
      some ⟨152, 2, "#718096"⟩ ∧
    (152 : ℚ) ≠ 2 := by
  refine ⟨?_, ?_, by norm_num⟩
  · norm_num +decide [exRoot, exNode, scanRec, scan_directory, scanEntries,
      should_exclude_file, determine_category, colors_get, EXCLUDE_DIRS,
      MIN_SIZE_TO_REPORT, strEnds, strStarts, strIn, listIn, findCategory,
      startsWithNum, pyLower, CATEGORY_PATTERNS, COLORS, DirectoryNode.size,
      DirectoryNode.file_count]
  · rfl

/-- C2 (amended): on the worked example (one 2 MB file plus a 150 MB
file inside `01_Projects`, threshold 0.1 MB, depth 3) the scanner
reports a 152 MB root with one retained child categorized `projects` of
150 MB, and the category map holds `projects ↦ 150` and
`other ↦ 152` — the root's bucket receives the root's cumulative size,
which includes its descendants. -/
theorem pipeline_example :
    scan_directory (some exRoot) "/r" 3 = some exNode ∧
    exNode.size = 152 ∧
    exNode.children.map DirectoryNode.category = ["projects"] ∧
    exNode.children.map DirectoryNode.size = [150] ∧
    aggregate_by_category exNode =
      [("other", ⟨152, 2, "#718096"⟩), ("projects", ⟨150, 1, "#F687B3"⟩)] := by
  refine ⟨?_, by rfl, by rfl, by rfl, by rfl⟩
  norm_num +decide [exRoot, exNode, scanRec, scan_directory, scanEntries,
    should_exclude_file, determine_category, colors_get, EXCLUDE_DIRS,
    MIN_SIZE_TO_REPORT, strEnds, strStarts, strIn, listIn, findCategory,
    startsWithNum, pyLower, CATEGORY_PATTERNS, COLORS, DirectoryNode.size,
    DirectoryNode.file_count]

/-- Membership in the strict-descendant list unfolded one level. -/
theorem mem_descList {cs : List DirectoryNode} {c : DirectoryNode} :
    c ∈ descList cs ↔ ∃ x ∈ cs, c = x ∨ c ∈ descendants x := by
  induction cs with
  | nil => simp [descList]
  | cons x rest ih =>
    simp only [descList, List.mem_cons, List.mem_append, ih]
    constructor
    · rintro (h | h | ⟨y, hy, hcy⟩)
      · exact ⟨x, Or.inl rfl, Or.inl h⟩
      · exact ⟨x, Or.inl rfl, Or.inr h⟩
      · exact ⟨y, Or.inr hy, hcy⟩
    · rintro ⟨y, rfl | hy, hcy⟩
      · rcases hcy with h | h
        · exact Or.inl h
        · exact Or.inr (Or.inl h)
      · exact Or.inr (Or.inr ⟨y, hy, hcy⟩)

/-- C4 (counterexample): an empty root's cumulative size 0 is below the
0.1 MB threshold, yet the node appears in the output tree, in the
category aggregates and in the top-N list — retention filtering is
never applied to the root. -/
theorem root_subthreshold_counterexample :
    scan_directory (some emptyRoot) "/e" 3 = some emptyNode ∧
    emptyNode.size < MIN_SIZE_TO_REPORT ∧
    (aggregate_by_category emptyNode).lookup emptyNode.category =
      some ⟨0, 0, "#718096"⟩ ∧
    topEntry emptyNode ∈ get_top_directories emptyNode 10 := by
  refine ⟨?_, by norm_num [emptyNode, DirectoryNode.size, MIN_SIZE_TO_REPORT],
    by rfl, ?_⟩
  · norm_num +decide [emptyRoot, emptyNode, scanRec, scan_directory,
      scanEntries, determine_category, colors_get, EXCLUDE_DIRS, strStarts,
      strIn, listIn, findCategory, startsWithNum, pyLower, CATEGORY_PATTERNS,
      COLORS]
  · simp [get_top_directories, collect_dirs, collect_dirs_list, emptyNode,
      List.insertionSort, List.orderedInsert, topEntry, DirectoryNode.name,
      DirectoryNode.size, DirectoryNode.category, DirectoryNode.color]

/-- C4 (amended): no node other than the root itself falls below the
minimum-size threshold: every strict descendant of the scanner's output
node has cumulative size at least `MIN_SIZE_TO_REPORT` (the derived
views are computed from these tree nodes only). -/
theorem scan_descendants_meet_threshold (e : FSEntry) :
    ∀ (p : String) (d m : Nat) (node : DirectoryNode),
      scanRec e p d m = some node →
      ∀ c ∈ descendants node, MIN_SIZE_TO_REPORT ≤ c.size := by
  induction e using fsEntryMemRec with
  | file n s => intro p d m node h; simp [scanRec] at h
  | dir nm es ih =>
    intro p d m node h c hc
    by_cases hmem : nm ∈ EXCLUDE_DIRS
    · simp [scanRec, hmem] at h
    · rw [scanRec_dir_eq nm es p d m hmem, Option.some_inj] at h
      obtain ⟨-, -, h3⟩ := scanEntries_spec p d m es
      subst h
      simp only [descendants, DirectoryNode.children] at hc
      rw [mem_descList] at hc
      obtain ⟨x, hx, hcx⟩ := hc
      rcases hcx with rfl | hcx
      · exact (h3 c hx).1
      · obtain ⟨-, e, he, hsr⟩ := h3 x hx
        exact ih e he _ _ _ _ hsr c hcx

/-- C4 (witness): the one strict descendant of the worked example's scan
output (the retained `01_Projects` child) meets the threshold. -/
theorem scan_descendants_meet_threshold_witness :
    MIN_SIZE_TO_REPORT ≤
      (DirectoryNode.mk "01_Projects" "/r/01_Projects" 150 1 [] "projects"
        "#F687B3").size :=
  scan_descendants_meet_threshold exRoot "/r" 0 3 exNode (by
    norm_num +decide [exRoot, exNode, scanRec, scanEntries,
      should_exclude_file, determine_category, colors_get, EXCLUDE_DIRS,
      MIN_SIZE_TO_REPORT, strEnds, strStarts, strIn, listIn, findCategory,
      startsWithNum, pyLower, CATEGORY_PATTERNS, COLORS, DirectoryNode.size,
      DirectoryNode.file_count])
    (DirectoryNode.mk "01_Projects" "/r/01_Projects" 150 1 [] "projects"
      "#F687B3")
    (by simp [descendants, descList, exNode, DirectoryNode.children])

/-- C8: the processing stage is a deterministic function of the scanned
tree: two pipeline runs over the same file-system snapshot produce
identical category aggregates and identical hierarchy views, whatever
the two scan timestamps are. -/
theorem pipeline_deterministic (root : Option FSEntry) (p : String)
    (m : Nat) (date₁ date₂ : String) :
    (scan_directory root p m).map
        (fun t => (process_scan_data t date₁).categories) =
      (scan_directory root p m).map
        (fun t => (process_scan_data t date₂).categories) ∧
    (scan_directory root p m).map
        (fun t => (process_scan_data t date₁).tree_data) =
      (scan_directory root p m).map
        (fun t => (process_scan_data t date₂).tree_data) :=
  ⟨rfl, rfl⟩

/-- A one-character pattern is a substring of any list containing that
character. -/
theorem listIn_singleton {c : Char} : ∀ {l : List Char}, c ∈ l →
    listIn [c] l = true := by
  intro l
  induction l with
  | nil => intro h; cases h
  | cons x rest ih =>
    intro h
    rcases List.mem_cons.mp h with rfl | h
    · simp [listIn, List.isPrefixOf]
    · simp [listIn, ih h]

/-- C10: because the `config` keyword list contains the pattern `"."`
and keyword matching is substring containment over the lowercased name,
every directory name containing a dot anywhere is categorized `config`,
unless a keyword of one of the earlier categories (projects, knowledge,
tools, assets, development) matches the lowered name first. -/
theorem dot_name_is_config (name : String) (hdot : '.' ∈ name.data)
    (hearly : ∀ kw ∈ earlier_keywords, strIn kw (pyLower name) = false) :
    determine_category name = "config" := by
  have hin : strIn "." (pyLower name) = true := by
    have hmem : '.' ∈ (pyLower name).data :=
      List.mem_map.mpr ⟨'.', hdot, by decide⟩
    exact listIn_singleton hmem
  simp only [earlier_keywords, CATEGORY_PATTERNS, List.take, List.map,
    List.flatten, List.append_nil, List.cons_append, List.mem_cons,
    List.mem_singleton, List.not_mem_nil, forall_eq_or_imp, forall_eq,
    List.nil_append] at hearly
  obtain ⟨e1, e2, e3, e4, e5, e6, e7, e8, e9, e10, e11, e12, e13, e14, e15,
    e16, e17, e18, e19, e20, e21, e22⟩ := by
      simpa using hearly
  simp [determine_category, findCategory, CATEGORY_PATTERNS, e1, e2, e3, e4,
    e5, e6, e7, e8, e9, e10, e11, e12, e13, e14, e15, e16, e17, e18, e19,
    e20, e21, e22, hin]

/-- C10 (witness): `archive.2020` contains a dot, no earlier keyword
matches, and it is categorized `config`. -/
theorem dot_name_is_config_witness : determine_category "archive.2020" = "config" :=
  dot_name_is_config "archive.2020" (by decide) (by decide)

/-- `collect_dirs` unfolded through the node's accessors. -/
theorem collect_dirs_eq (n : DirectoryNode) (lvl : Nat) :
    collect_dirs n lvl =
      (if lvl ≤ 2 then [topEntry n] else []) ++
        collect_dirs_list n.children (lvl + 1) := by
  cases n
  rfl

/-- Membership in the collection over a forest. -/
theorem collect_dirs_list_mem {x : TopDir} {lvl : Nat} :
    ∀ {cs : List DirectoryNode},
      x ∈ collect_dirs_list cs lvl ↔ ∃ c ∈ cs, x ∈ collect_dirs c lvl := by
  intro cs
  induction cs with
  | nil => simp [collect_dirs_list]
  | cons c rest ih =>
    simp only [collect_dirs_list, List.mem_append, ih, List.mem_cons]
    constructor
    · rintro (h | ⟨y, hy, hxy⟩)
      · exact ⟨c, Or.inl rfl, h⟩
      · exact ⟨y, Or.inr hy, hxy⟩
    · rintro ⟨y, rfl | hy, hxy⟩
      · exact Or.inl hxy
      · exact Or.inr ⟨y, hy, hxy⟩

/-- Below level 2 nothing is collected: the forest version. -/
theorem collect_dirs_list_nil (cs : List DirectoryNode)
    (h : ∀ c ∈ cs, ∀ lvl, 2 < lvl → collect_dirs c lvl = []) :
    ∀ lvl, 2 < lvl → collect_dirs_list cs lvl = [] := by
  induction cs with
  | nil => intro lvl _; rfl
  | cons c rest ih =>
    intro lvl hlvl
    rw [collect_dirs_list, h c (List.mem_cons_self _ _) lvl hlvl,
      ih (fun y hy => h y (List.mem_cons_of_mem _ hy)) lvl hlvl]
    rfl

/-- `collect_dirs` yields nothing when started strictly below level 2. -/
theorem collect_dirs_nil (n : DirectoryNode) :
    ∀ lvl, 2 < lvl → collect_dirs n lvl = [] := by
  induction n using directoryNodeMemRec with
  | mk nm p sz fc ch cat col ih =>
    intro lvl hlvl
    rw [collect_dirs_eq]
    have hif : ¬ lvl ≤ 2 := by omega
    rw [if_neg hif, List.nil_append]
    simp only [DirectoryNode.children]
    exact collect_dirs_list_nil _ ih (lvl + 1) (by omega)

/-- Every record collected from level `lvl ≤ 2` comes from a node within
depth `2 - lvl` of the starting node. -/
theorem collect_dirs_sub (n : DirectoryNode) :
    ∀ lvl, lvl ≤ 2 → ∀ x ∈ collect_dirs n lvl,
      ∃ m ∈ nodesToDepth (2 - lvl) n, x = topEntry m := by
  induction n using directoryNodeMemRec with
  | mk nm p sz fc ch cat col ih =>
    intro lvl hlvl x hx
    rw [collect_dirs_eq, if_pos hlvl] at hx
    rcases List.mem_append.mp hx with hx | hx
    · rcases List.mem_singleton.mp hx with rfl
      refine ⟨_, ?_, rfl⟩
      cases h2 : 2 - lvl with
      | zero => simp [nodesToDepth]
      | succ k => simp [nodesToDepth]
    · by_cases h2 : lvl + 1 ≤ 2
      · obtain ⟨c, hc, hxc⟩ := collect_dirs_list_mem.mp hx
        obtain ⟨m, hm, rfl⟩ := ih c (by simpa [DirectoryNode.children] using hc)
          (lvl + 1) h2 x hxc
        refine ⟨m, ?_, rfl⟩
        have hk : 2 - lvl = (2 - (lvl + 1)) + 1 := by omega
        rw [hk, nodesToDepth]
        refine List.mem_cons_of_mem _ (List.mem_flatten.mpr ⟨_, ?_, hm⟩)
        exact List.mem_map.mpr ⟨c, by simpa [DirectoryNode.children] using hc, rfl⟩
      · rw [collect_dirs_list_nil _ (fun y _ => collect_dirs_nil y) (lvl + 1)
          (by omega)] at hx
        cases hx

/-- C5: the top-N directory list has length at most the configured
limit, is sorted in descending order of cumulative size, and contains
only records of nodes at depth 0, 1 or 2 of the tree. -/
theorem top_directories_spec (data : DirectoryNode) (limit : Nat) :
    (get_top_directories data limit).length ≤ limit ∧
    List.Sorted topOrd (get_top_directories data limit) ∧
    ∀ x ∈ get_top_directories data limit,
      ∃ n ∈ nodesToDepth 2 data, x = topEntry n := by
  refine ⟨?_, ?_, ?_⟩
  · rw [get_top_directories, List.length_take]
    exact min_le_left _ _
  · exact List.Pairwise.sublist (List.take_sublist _ _)
      (List.sorted_insertionSort topOrd (collect_dirs data 0))
  · intro x hx
    have hx₁ : x ∈ List.insertionSort topOrd (collect_dirs data 0) :=
      List.mem_of_mem_take hx
    have hx₂ : x ∈ collect_dirs data 0 :=
      (List.perm_insertionSort topOrd (collect_dirs data 0)).subset hx₁
    simpa using collect_dirs_sub data 0 (by omega) x hx₂

/-- The `create_network` child loop satisfies `NetSpecList` whenever
each child call satisfies `NetSpec`. -/
theorem netSpecList (cs : List DirectoryNode) (hall : ∀ c ∈ cs, NetSpec c) :
    NetSpecList cs := by
  induction cs with
  | nil =>
    intro pid lvl s ns es hps
    refine ⟨by simp [create_network_list, countList], [], [], ?_, ?_, ?_, ?_, ?_⟩
    · simp [create_network_list]
    · simp [create_network_list]
    · simp [countList, List.range']
    · simp [countList]
    · intro ed hed; cases hed
  | cons c rest ih =>
    intro pid lvl s ns es hps
    obtain ⟨hc1, nns₁, neds₁, hn1, he1, hid1, hlen1, hb1⟩ :=
      hall c (List.mem_cons_self _ _) pid lvl s ns es hps
    have hst : create_network c (some pid) lvl (s, ns, es) =
        (s + countNodes c, ns ++ nns₁, es ++ neds₁) :=
      Prod.ext_iff.mpr ⟨hc1, Prod.ext_iff.mpr ⟨hn1, he1⟩⟩
    obtain ⟨h21, nns₂, neds₂, hn2, he2, hid2, hlen2, hb2⟩ :=
      ih (fun y hy => hall y (List.mem_cons_of_mem _ hy)) pid lvl
        (s + countNodes c) (ns ++ nns₁) (es ++ neds₁)
        (lt_of_lt_of_le hps (Nat.le_add_right _ _))
    have hrw : create_network_list (c :: rest) pid lvl (s, ns, es) =
        create_network_list rest pid lvl
          (s + countNodes c, ns ++ nns₁, es ++ neds₁) := by
      rw [create_network_list, hst]
    rw [hrw]
    refine ⟨?_, nns₁ ++ nns₂, neds₁ ++ neds₂, ?_, ?_, ?_, ?_, ?_⟩
    · rw [h21, countList]; omega
    · rw [hn2, List.append_assoc]
    · rw [he2, List.append_assoc]
    · rw [List.map_append, hid1, hid2, countList]
      have hr := List.range'_append s (countNodes c) (countList rest) 1
      simp only [one_mul] at hr
      rw [hr, Nat.add_comm]
    · rw [List.length_append, hlen1, hlen2, countList]
    · intro ed hed
      rcases List.mem_append.mp hed with h | h
      · obtain ⟨hf, ht⟩ := hb1 ed h
        exact ⟨hf, by rw [countList]; omega⟩
      · obtain ⟨hf, ht⟩ := hb2 ed h
        rw [countList]
        refine ⟨hf, by omega⟩

/-- Every `create_network` call on a child satisfies `NetSpec`. -/
theorem netSpec (c : DirectoryNode) : NetSpec c := by
  induction c using directoryNodeMemRec with
  | mk nm p sz fc ch cat col ih =>
    intro pid lvl s ns es hps
    obtain ⟨h1, nns₂, neds₂, hn2, he2, hid2, hlen2, hb2⟩ :=
      netSpecList ch ih s (lvl + 1) (s + 1)
        (ns ++ [⟨s, nm ++ "\\n" ++ format_size sz, min 50 (max 20 (sz / 100)),
          col, lvl⟩])
        (es ++ [⟨pid, s, min 5 (max 1 (sz / 1000))⟩]) (Nat.lt_succ_self s)
    have hunf : create_network (.mk nm p sz fc ch cat col) (some pid) lvl
        (s, ns, es) =
        create_network_list ch s (lvl + 1)
          (s + 1,
           ns ++ [⟨s, nm ++ "\\n" ++ format_size sz,
             min 50 (max 20 (sz / 100)), col, lvl⟩],
           es ++ [⟨pid, s, min 5 (max 1 (sz / 1000))⟩]) := rfl
    rw [hunf]
    refine ⟨by rw [h1, countNodes]; omega,
      ⟨s, nm ++ "\\n" ++ format_size sz, min 50 (max 20 (sz / 100)),
        col, lvl⟩ :: nns₂,
      ⟨pid, s, min 5 (max 1 (sz / 1000))⟩ :: neds₂, ?_, ?_, ?_, ?_, ?_⟩
    · rw [hn2, List.append_assoc]; rfl
    · rw [he2, List.append_assoc]; rfl
    · simp only [List.map_cons, hid2, countNodes]
      rw [Nat.add_comm 1 (countList ch), List.range'_succ]
    · simp only [List.length_cons, hlen2, countNodes]; omega
    · intro ed hed
      have hcnt : 1 ≤ countNodes (DirectoryNode.mk nm p sz fc ch cat col) := by
        rw [countNodes]; omega
      rcases List.mem_cons.mp hed with rfl | hed
      · refine ⟨hps, ?_⟩
        show s < s + countNodes (DirectoryNode.mk nm p sz fc ch cat col)
        rw [countNodes]; omega
      · obtain ⟨hf, ht⟩ := hb2 ed hed
        exact ⟨hf, by rw [countNodes]; omega⟩

/-- C6: the flattened graph view numbers its nodes `0, 1, 2, …` in
pre-order, has exactly one edge fewer than it has nodes, and every
edge points from a strictly smaller id to a strictly larger one. -/
theorem network_data_spec (data : DirectoryNode) :
    (prepare_network_data data).1.map NetNode.id =
      List.range (countNodes data) ∧
    (prepare_network_data data).1.length = countNodes data ∧
    (prepare_network_data data).2.length + 1 =
      (prepare_network_data data).1.length ∧
    ∀ ed ∈ (prepare_network_data data).2, ed.fromId < ed.toId := by
  cases data with
  | mk nm p sz fc ch cat col =>
    obtain ⟨h1, nns, neds, hn, he, hid, hlen, hb⟩ :=
      netSpecList ch (fun y _ => netSpec y) 0 1 1
        [⟨0, nm ++ "\\n" ++ format_size sz, min 50 (max 20 (sz / 100)),
          col, 0⟩] [] (by omega)
    have hunf : prepare_network_data (.mk nm p sz fc ch cat col) =
        ((create_network_list ch 0 1
          (1, [⟨0, nm ++ "\\n" ++ format_size sz,
            min 50 (max 20 (sz / 100)), col, 0⟩], [])).2.1,
         (create_network_list ch 0 1
          (1, [⟨0, nm ++ "\\n" ++ format_size sz,
            min 50 (max 20 (sz / 100)), col, 0⟩], [])).2.2) := rfl
    have hnl : nns.length = countList ch := by
      have := congrArg List.length hid
      simpa using this
    have hel : neds.length = countList ch := hlen
    rw [hunf]
    refine ⟨?_, ?_, ?_, ?_⟩
    · rw [hn]
      simp only [List.map_append, List.map_cons, List.map_nil, hid,
        List.range_eq_range', countNodes]
      rw [Nat.add_comm 1 (countList ch), List.range'_succ]
      simp
    · rw [hn, List.length_append, List.length_cons, List.length_nil, hnl,
        countNodes]
    · rw [hn, he, List.length_append, List.length_append, List.length_cons,
        List.length_nil, List.length_nil, hnl, hel]
      omega
    · intro ed hed
      rw [he, List.nil_append] at hed
      exact (hb ed hed).1

/-- Direct file totals are nonnegative. -/
theorem files_size_nonneg : ∀ es : List FSEntry, 0 ≤ files_size es := by
  intro es
  induction es with
  | nil => simp [files_size]
  | cons e rest ih =>
    cases e with
    | file fn sz =>
      simp only [files_size]
      have h0 : (0 : ℚ) ≤
          (if should_exclude_file fn then 0
           else match sz with
             | some bytes => (bytes : ℚ) / (1024 * 1024)
             | none => 0) := by
        split
        · exact le_refl 0
        · cases sz with
          | some bytes => positivity
          | none => exact le_refl 0
      linarith
    | dir dn des => simp only [files_size]; exact ih

/-- Every scanned node has nonnegative size. -/
theorem scan_size_nonneg (e : FSEntry) (p : String) (d m : Nat)
    (node : DirectoryNode) (h : scanRec e p d m = some node) :
    0 ≤ node.size := by
  cases e with
  | file n s => simp [scanRec] at h
  | dir nm es =>
    by_cases hmem : nm ∈ EXCLUDE_DIRS
    · simp [scanRec, hmem] at h
    · rw [scanRec_dir_eq nm es p d m hmem, Option.some_inj] at h
      obtain ⟨h1, -, h3⟩ := scanEntries_spec p d m es
      subst h
      simp only [DirectoryNode.size]
      rw [h1]
      have hsum : 0 ≤ ((scanEntries es p d m).2.2.map DirectoryNode.size).sum := by
        refine List.sum_nonneg ?_
        intro x hx
        obtain ⟨c, hc, rfl⟩ := List.mem_map.mp hx
        have := (h3 c hc).1
        have h10 : (0 : ℚ) ≤ MIN_SIZE_TO_REPORT := by
          rw [MIN_SIZE_TO_REPORT]; norm_num
        linarith
      have := files_size_nonneg es
      linarith

/-- Every retained child's size is at most its parent's size. -/
theorem scan_child_le (e : FSEntry) (p : String) (d m : Nat)
    (node : DirectoryNode) (h : scanRec e p d m = some node) :
    ∀ c ∈ node.children, c.size ≤ node.size := by
  cases e with
  | file n s => simp [scanRec] at h
  | dir nm es =>
    by_cases hmem : nm ∈ EXCLUDE_DIRS
    · simp [scanRec, hmem] at h
    · rw [scanRec_dir_eq nm es p d m hmem, Option.some_inj] at h
      obtain ⟨h1, -, h3⟩ := scanEntries_spec p d m es
      subst h
      intro c hc
      simp only [DirectoryNode.children] at hc
      show c.size ≤ (scanEntries es p d m).1
      rw [h1]
      have h10 : (0 : ℚ) ≤ MIN_SIZE_TO_REPORT := by
        rw [MIN_SIZE_TO_REPORT]; norm_num
      have hmono : c.size ≤ ((scanEntries es p d m).2.2.map DirectoryNode.size).sum := by
        refine List.single_le_sum ?_ _ (List.mem_map.mpr ⟨c, hc, rfl⟩)
        intro x hx
        obtain ⟨y, hy, rfl⟩ := List.mem_map.mp hx
        have := (h3 y hy).1
        linarith
      have := files_size_nonneg es
      linarith

/-- Every strict descendant's size is at most the scanned root's size. -/
theorem scan_desc_le (e : FSEntry) :
    ∀ (p : String) (d m : Nat) (node : DirectoryNode),
      scanRec e p d m = some node →
      ∀ c ∈ descendants node, c.size ≤ node.size := by
  induction e using fsEntryMemRec with
  | file n s => intro p d m node h; simp [scanRec] at h
  | dir nm es ih =>
    intro p d m node h c hc
    by_cases hmem : nm ∈ EXCLUDE_DIRS
    · simp [scanRec, hmem] at h
    · have hchild := scan_child_le _ p d m node h
      rw [scanRec_dir_eq nm es p d m hmem, Option.some_inj] at h
      obtain ⟨-, -, h3⟩ := scanEntries_spec p d m es
      subst h
      simp only [descendants, DirectoryNode.children] at hc
      rw [mem_descList] at hc
      obtain ⟨x, hx, hcx⟩ := hc
      rcases hcx with rfl | hcx
      · exact hchild c (by simpa [DirectoryNode.children] using hx)
      · obtain ⟨-, e, he, hsr⟩ := h3 x hx
        have h₁ : c.size ≤ x.size := ih e he _ _ _ _ hsr c hcx
        have h₂ : x.size ≤ _ :=
          hchild x (by simpa [DirectoryNode.children] using hx)
        exact le_trans h₁ h₂

/-- `bump` always leaves the bumped key present. -/
theorem lookup_bump_self (cats : List (String × CatData)) (cat : String)
    (sz : ℚ) (cnt : Nat) (col : String) :
    ((bump cats cat sz cnt col).lookup cat).isSome = true := by
  induction cats with
  | nil => simp [bump]
  | cons cd rest ih =>
    obtain ⟨c, d⟩ := cd
    by_cases hc : c = cat
    · subst hc; simp [bump]
    · simp only [bump, if_neg hc]
      simp only [List.lookup]
      have : (cat == c) = false := by
        simpa using fun h => hc h.symm
      rw [this]
      exact ih

/-- `bump` never removes a key. -/
theorem lookup_bump_mono (cats : List (String × CatData)) (k cat : String)
    (sz : ℚ) (cnt : Nat) (col : String)
    (h : (cats.lookup k).isSome = true) :
    ((bump cats cat sz cnt col).lookup k).isSome = true := by
  induction cats with
  | nil => simp [List.lookup] at h
  | cons cd rest ih =>
    obtain ⟨c, d⟩ := cd
    by_cases hc : c = cat
    · subst hc
      simp only [bump, if_pos rfl]
      simp only [List.lookup] at h ⊢
      by_cases hk : (k == c) = true
      · rw [hk]; rfl
      · rw [eq_false_of_ne_true hk] at h ⊢
        exact h
    · simp only [bump, if_neg hc]
      simp only [List.lookup] at h ⊢
      by_cases hk : (k == c) = true
      · rw [hk] at h ⊢; exact h
      · rw [eq_false_of_ne_true hk] at h ⊢
        exact ih h

/-- The child loop of the category aggregation never removes a key,
provided each child's aggregation does not. -/
theorem aggregate_list_keeps (cs : List DirectoryNode)
    (hall : ∀ c ∈ cs, ∀ (cats : List (String × CatData)) (k : String),
      (cats.lookup k).isSome = true →
      ((aggregate_node cats c).lookup k).isSome = true) :
    ∀ (cats : List (String × CatData)) (k : String),
      (cats.lookup k).isSome = true →
      ((aggregate_list cats cs).lookup k).isSome = true := by
  induction cs with
  | nil => intro cats k h; simpa [aggregate_list] using h
  | cons c rest ih =>
    intro cats k h
    rw [aggregate_list]
    exact ih (fun y hy => hall y (List.mem_cons_of_mem _ hy)) _ k
      (hall c (List.mem_cons_self _ _) cats k h)

/-- The category aggregation never removes a key. -/
theorem aggregate_node_keeps (n : DirectoryNode) :
    ∀ (cats : List (String × CatData)) (k : String),
      (cats.lookup k).isSome = true →
      ((aggregate_node cats n).lookup k).isSome = true := by
  induction n using directoryNodeMemRec with
  | mk nm p sz fc ch cat col ih =>
    intro cats k h
    rw [aggregate_node]
    exact aggregate_list_keeps ch ih _ k (lookup_bump_mono cats k cat sz fc col h)

/-- A stable sort keeps a maximal first element first. -/
theorem insertionSort_eq_cons {α : Type} (r : α → α → Prop) [DecidableRel r]
    (x : α) (l : List α) (h : ∀ y ∈ l, r x y) :
    List.insertionSort r (x :: l) = x :: List.insertionSort r l := by
  cases hs : List.insertionSort r l with
  | nil => rw [List.insertionSort, hs]; rfl
  | cons y ys =>
    have hy : y ∈ l := (List.perm_insertionSort r l).subset
      (by rw [hs]; exact List.mem_cons_self y ys)
    rw [List.insertionSort, hs, List.orderedInsert, if_pos (h y hy)]

/-- Everything `collect_dirs` gathers is the record of the node itself
or of one of its strict descendants. -/
theorem collect_dirs_mem_tree (n : DirectoryNode) :
    ∀ (lvl : Nat), ∀ x ∈ collect_dirs n lvl,
      ∃ m, (m = n ∨ m ∈ descendants n) ∧ x = topEntry m := by
  induction n using directoryNodeMemRec with
  | mk nm p sz fc ch cat col ih =>
    intro lvl x hx
    rw [collect_dirs_eq] at hx
    rcases List.mem_append.mp hx with hx | hx
    · have hx' : x = topEntry (DirectoryNode.mk nm p sz fc ch cat col) := by
        rcases (show lvl ≤ 2 ∨ ¬ lvl ≤ 2 from em _) with h2 | h2
        · rw [if_pos h2] at hx
          exact (List.mem_singleton.mp hx)
        · rw [if_neg h2] at hx
          cases hx
      exact ⟨_, Or.inl rfl, hx'⟩
    · obtain ⟨c, hc, hxc⟩ := collect_dirs_list_mem.mp hx
      have hc' : c ∈ (DirectoryNode.mk nm p sz fc ch cat col).children := hc
      obtain ⟨m, hm, rfl⟩ := ih c (by simpa [DirectoryNode.children] using hc')
        (lvl + 1) _ hxc
      refine ⟨m, Or.inr ?_, rfl⟩
      simp only [descendants, DirectoryNode.children]
      rw [mem_descList]
      rcases hm with rfl | hm
      · exact ⟨m, by simpa [DirectoryNode.children] using hc', Or.inl rfl⟩
      · exact ⟨c, by simpa [DirectoryNode.children] using hc', Or.inr hm⟩

/-- C9: the root node is never removed by retention filtering: for every
existing, non-excluded root directory the scanner returns a root node —
the minimum-size test is applied only to child nodes, so this holds even
when the root's cumulative size is below the threshold — and that node
appears in every derived view: it is the root of the hierarchy view, its
category is a bucket of the category aggregates, it is node 0 of the
graph view, and its record is in the top-N list. -/
theorem root_never_filtered (nm : String) (es : List FSEntry) (p : String)
    (m : Nat) (hmem : nm ∉ EXCLUDE_DIRS) :
    ∃ node, scan_directory (some (.dir nm es)) p m = some node ∧
      node.name = nm ∧
      (prepare_tree_data node).name = nm ∧
      (prepare_tree_data node).value = node.size ∧
      (∃ cd, (aggregate_by_category node).lookup node.category = some cd) ∧
      (∃ rest, (prepare_network_data node).1 =
        ⟨0, nm ++ "\\n" ++ format_size node.size,
          min 50 (max 20 (node.size / 100)), node.color, 0⟩ :: rest) ∧
      topEntry node ∈ get_top_directories node 10 := by
  have hscan := scanRec_dir_eq nm es p 0 m hmem
  refine ⟨.mk nm p (scanEntries es p 0 m).1 (scanEntries es p 0 m).2.1
    (scanEntries es p 0 m).2.2 (determine_category nm)
    (colors_get (determine_category nm)), hscan, rfl, rfl, rfl, ?_, ?_, ?_⟩
  · set node := DirectoryNode.mk nm p (scanEntries es p 0 m).1
      (scanEntries es p 0 m).2.1 (scanEntries es p 0 m).2.2
      (determine_category nm) (colors_get (determine_category nm)) with hnode
    have hagg : ((aggregate_by_category node).lookup node.category).isSome
        = true := by
      rw [aggregate_by_category, hnode]
      simp only [aggregate_node]
      refine aggregate_list_keeps _ (fun y _ => aggregate_node_keeps y) _ _ ?_
      exact lookup_bump_self [] _ _ _ _
    exact Option.isSome_iff_exists.mp hagg
  · set node := DirectoryNode.mk nm p (scanEntries es p 0 m).1
      (scanEntries es p 0 m).2.1 (scanEntries es p 0 m).2.2
      (determine_category nm) (colors_get (determine_category nm)) with hnode
    obtain ⟨-, nns, neds, hn, -, -, -, -⟩ :=
      netSpecList (scanEntries es p 0 m).2.2 (fun y _ => netSpec y) 0 1 1
        [⟨0, nm ++ "\\n" ++ format_size (scanEntries es p 0 m).1,
          min 50 (max 20 ((scanEntries es p 0 m).1 / 100)),
          colors_get (determine_category nm), 0⟩] [] (by omega)
    refine ⟨nns, ?_⟩
    show (create_network_list (scanEntries es p 0 m).2.2 0 1
      (1, [⟨0, nm ++ "\\n" ++ format_size (scanEntries es p 0 m).1,
        min 50 (max 20 ((scanEntries es p 0 m).1 / 100)),
        colors_get (determine_category nm), 0⟩], [])).2.1 = _
    rw [hn]
    rfl
  · set node := DirectoryNode.mk nm p (scanEntries es p 0 m).1
      (scanEntries es p 0 m).2.1 (scanEntries es p 0 m).2.2
      (determine_category nm) (colors_get (determine_category nm)) with hnode
    have hcoll : collect_dirs node 0 =
        topEntry node :: collect_dirs_list (scanEntries es p 0 m).2.2 1 := by
      rw [collect_dirs_eq, if_pos (by omega : (0 : Nat) ≤ 2)]
      rw [hnode]
      simp [DirectoryNode.children]
    have hmax : ∀ y ∈ collect_dirs_list (scanEntries es p 0 m).2.2 1,
        topOrd (topEntry node) y := by
      intro y hy
      have hy' : y ∈ collect_dirs node 0 := by
        rw [hcoll]; exact List.mem_cons_of_mem _ hy
      obtain ⟨q, hq, rfl⟩ := collect_dirs_mem_tree node 0 y hy'
      rcases hq with rfl | hq
      · exact le_refl _
      · exact scan_desc_le (.dir nm es) p 0 m node hscan q hq
    have hsorted := insertionSort_eq_cons topOrd (topEntry node)
      (collect_dirs_list (scanEntries es p 0 m).2.2 1) hmax
    have ht : List.take 10 (topEntry node :: List.insertionSort topOrd
        (collect_dirs_list (scanEntries es p 0 m).2.2 1)) =
        topEntry node :: List.take 9 (List.insertionSort topOrd
        (collect_dirs_list (scanEntries es p 0 m).2.2 1)) := rfl
    rw [get_top_directories, hcoll, hsorted, ht]
    exact List.mem_cons_self _ _

/-- C9 (witness): even an empty (hence sub-threshold) root is returned
and appears in every derived view. -/
theorem root_never_filtered_witness :
    ∃ node, scan_directory (some (.dir "emptyroot" [])) "/e" 3 = some node ∧
      node.name = "emptyroot" ∧
      (prepare_tree_data node).name = "emptyroot" ∧
      (prepare_tree_data node).value = node.size ∧
      (∃ cd, (aggregate_by_category node).lookup node.category = some cd) ∧
      (∃ rest, (prepare_network_data node).1 =
        ⟨0, "emptyroot" ++ "\\n" ++ format_size node.size,
          min 50 (max 20 (node.size / 100)), node.color, 0⟩ :: rest) ∧
      topEntry node ∈ get_top_directories node 10 :=
  root_never_filtered "emptyroot" [] "/e" 3 (by decide)

end SystemMap
